/-
Verification of the routing core of `intento3.py`: graph construction from an
edge list (`construir_grafo`), single-source shortest paths (`Dijkstra` with a
lazy-deletion binary heap, modelled as a multiset with minimum extraction),
path reconstruction (`reconstruir_camino`) and batch shipment resolution
(`procesar_envios`).

Modelling choices, stated once:
* Node identifiers are strings, edge weights are rationals (the source uses
  Python floats over decimal literals; all arithmetic in scope is exact).
* Python dicts are insertion-ordered association lists: `dictGet` reads the
  first binding, `dictSet` overwrites in place or appends a fresh key at the
  end, exactly like `d[k] = v`.
* `float('inf')` is `⊤ : WithTop ℚ`.
* `heapq` is modelled by its observable behaviour: a multiset of
  `(distance, node)` pairs from which `popMinimo` removes one occurrence of
  the lexicographically least pair (Python tuples compare lexicographically).
* The unbounded `while heap:` loop and the predecessor walk take explicit
  fuel; running out of fuel yields `none`, so every `some` result is a run
  that the Python program also completes.
* The SQLite loading and matplotlib drawing are external collaborators and
  are not modelled; the per-shipment status that the source encodes only in
  the message text ("origen desconocido" vs "Ruta no encontrada" vs a
  resolved message) is made explicit as a `Status` field.
-/
import Mathlib

abbrev Node := String

abbrev Adj := List (Node × ℚ)

abbrev Graph := List (Node × Adj)

abbrev DVal := WithTop ℚ

abbrev DistMap := List (Node × DVal)

abbrev PrevMap := List (Node × Option Node)

abbrev Cola := List (ℚ × Node)

/-- First binding of a key in an association list (Python dict read `m[k]`,
`k in m` is `(dictGet m k).isSome`). -/
def dictGet {α : Type} : List (Node × α) → Node → Option α
  | [], _ => none
  | p :: rest, n => if p.1 = n then some p.2 else dictGet rest n

/-- Python dict write `m[k] = v`: overwrite the first binding in place, or
append the key at the end when absent. -/
def dictSet {α : Type} : List (Node × α) → Node → α → List (Node × α)
  | [], k, v => [(k, v)]
  | p :: rest, k, v => if p.1 = k then (k, v) :: rest else p :: dictSet rest k v

/-- Python `set.add`, with the set carried as a duplicate-free list in first
insertion order (iteration order of a Python set is unspecified; no claim
depends on key order, only on membership). -/
def addNode (ns : List Node) (n : Node) : List Node :=
  if n ∈ ns then ns else ns ++ [n]

/-- One iteration of the edge loop of `construir_grafo`:
`grafo.setdefault(origen, {})[destino] = distancia`. -/
def agregarRuta (g : Graph) (origen destino : Node) (distancia : ℚ) : Graph :=
  match dictGet g origen with
  | some ady => dictSet g origen (dictSet ady destino distancia)
  | none => dictSet g origen [(destino, distancia)]

/-- The edge loop of `construir_grafo`: builds the adjacency dict and collects
the node set. -/
def recorrerRutas : List (Node × Node × ℚ) → Graph → List Node → Graph × List Node
  | [], g, nodos => (g, nodos)
  | (origen, destino, distancia) :: rs, g, nodos =>
      recorrerRutas rs (agregarRuta g origen destino distancia)
        (addNode (addNode nodos origen) destino)

/-- The closing loop of `construir_grafo`: `grafo.setdefault(n, {})` for every
collected node. -/
def completarNodos : List Node → Graph → Graph
  | [], g => g
  | n :: ns, g =>
      completarNodos ns (match dictGet g n with | some _ => g | none => g ++ [(n, [])])

/-- `construir_grafo` from the source (the parallel `networkx.DiGraph` and the
`mostrar` printing are presentation-only and not modelled). -/
def construir_grafo (rutas : List (Node × Node × ℚ)) : Graph :=
  let gn := recorrerRutas rutas [] []
  completarNodos gn.2 gn.1

/-- Distance read with the infinity sentinel: `dist[v]` where every missing
key reads as `float('inf')` (the source never reads a missing key on the
closed graphs it builds). -/
def dOf (dist : DistMap) (n : Node) : DVal :=
  (dictGet dist n).getD ⊤

/-- `dist = {n: float('inf') for n in grafo}`. -/
def initDist (g : Graph) : DistMap :=
  g.map (fun p => (p.1, (⊤ : DVal)))

/-- `prev = {n: None for n in grafo}`. -/
def initPrev (g : Graph) : PrevMap :=
  g.map (fun p => (p.1, (none : Option Node)))

/-- Lexicographic order on `(distance, node)` pairs, the order `heapq` uses on
Python tuples. -/
def leLex (a b : ℚ × Node) : Bool :=
  if a.1 < b.1 then true
  else if b.1 < a.1 then false
  else !(b.2 < a.2)

/-- `heapq.heappop` on a nonempty heap: return the least pair under `leLex`
and the remaining multiset. -/
def popMinimo : (ℚ × Node) → Cola → ((ℚ × Node) × Cola)
  | x, [] => (x, [])
  | x, y :: ys =>
      if leLex x (popMinimo y ys).1 then (x, y :: ys)
      else ((popMinimo y ys).1, x :: (popMinimo y ys).2)

/-- One relaxation step, the body of `for v, peso in grafo[u].items():` with
`alt = d_u + peso`. -/
def relaxStep (u : Node) (du : ℚ) (st : DistMap × PrevMap × Cola)
    (e : Node × ℚ) : DistMap × PrevMap × Cola :=
  if ((du + e.2 : ℚ) : DVal) < dOf st.1 e.1 then
    (dictSet st.1 e.1 ((du + e.2 : ℚ) : DVal), dictSet st.2.1 e.1 (some u),
      st.2.2 ++ [(du + e.2, e.1)])
  else st

/-- The whole relaxation loop over the adjacency of the popped node. -/
def relaxAll (u : Node) (du : ℚ) : Adj → DistMap × PrevMap × Cola → DistMap × PrevMap × Cola
  | [], st => st
  | e :: es, st => relaxAll u du es (relaxStep u du st e)

/-- One iteration of the `while heap:` loop after the pop: a stale entry
(`d_u > dist[u]`) is discarded, otherwise every outgoing edge of the popped
node is relaxed. -/
def dijkstraPaso (g : Graph) (dist : DistMap) (prev : PrevMap)
    (pm : (ℚ × Node) × Cola) : DistMap × PrevMap × Cola :=
  if dOf dist pm.1.2 < (pm.1.1 : DVal) then (dist, prev, pm.2)
  else relaxAll pm.1.2 pm.1.1 ((dictGet g pm.1.2).getD []) (dist, prev, pm.2)

/-- The `while heap:` loop of `Dijkstra`, with fuel for the unbounded loop. -/
def dijkstraLoop (g : Graph) : Nat → DistMap → PrevMap → Cola → Option (DistMap × PrevMap)
  | _, dist, prev, [] => some (dist, prev)
  | 0, _, _, _ :: _ => none
  | fuel + 1, dist, prev, x :: xs =>
      dijkstraLoop g fuel (dijkstraPaso g dist prev (popMinimo x xs)).1
        (dijkstraPaso g dist prev (popMinimo x xs)).2.1
        (dijkstraPaso g dist prev (popMinimo x xs)).2.2

/-- `Dijkstra(grafo, origen)` from the source: initialise every node to
infinity / no predecessor, return immediately when the source is unknown,
otherwise run the heap loop seeded with `(0, origen)`. -/
def Dijkstra (fuel : Nat) (grafo : Graph) (origen : Node) : Option (DistMap × PrevMap) :=
  let dist := initDist grafo
  let prev := initPrev grafo
  match dictGet grafo origen with
  | none => some (dist, prev)
  | some _ => dijkstraLoop grafo fuel (dictSet dist origen ((0 : ℚ) : DVal)) prev [((0 : ℚ), origen)]

/-- The `while u is not None:` walk of `reconstruir_camino`, with fuel.
`none` models a run the Python program does not complete (fuel out, or the
`KeyError` on a predecessor missing from `prev`, which cannot happen on maps
produced by `Dijkstra`). -/
def reconstruirLoop : Nat → PrevMap → Node → Option Node → List Node → Option (List Node)
  | 0, _, _, _, _ => none
  | _ + 1, _, _, none, camino => some camino
  | fuel + 1, prev, origen, some u, camino =>
      if u = origen then some (u :: camino)
      else
        match dictGet prev u with
        | none => none
        | some p => reconstruirLoop fuel prev origen p (u :: camino)

/-- `reconstruir_camino(prev, origen, destino)` from the source. -/
def reconstruir_camino (fuel : Nat) (prev : PrevMap) (origen destino : Node) :
    Option (List Node) :=
  match dictGet prev destino with
  | none => some []
  | some _ =>
      match reconstruirLoop fuel prev origen (some destino) [] with
      | none => none
      | some camino =>
          match camino with
          | [] => some []
          | c :: _ => if c = origen then some camino else some []

/-- Per-shipment outcome. The source encodes it in the message string only
("origen desconocido", "Ruta no encontrada", or a resolved summary); the
branch taken is made explicit here. -/
inductive Status where
  | RESOLVED
  | ORIGIN_UNKNOWN
  | UNREACHABLE
deriving DecidableEq, Repr

/-- One tuple appended to `resultados` by `procesar_envios` (the message
string and the optional drawing call are presentation-only). -/
structure Resultado where
  id_envio : Nat
  origen : Node
  destino : Node
  status : Status
  distancia : Option ℚ
  camino : Option (List Node)
deriving DecidableEq, Repr

/-- The body of the shipment loop of `procesar_envios`: run `Dijkstra`, then
branch on unknown origin, unreachable destination, or reconstruct the path. -/
def procesar_uno (fuel : Nat) (grafo : Graph) (e : Nat × Node × Node) : Option Resultado :=
  match Dijkstra fuel grafo e.2.1 with
  | none => none
  | some dp =>
      match dictGet grafo e.2.1 with
      | none => some ⟨e.1, e.2.1, e.2.2, Status.ORIGIN_UNKNOWN, none, none⟩
      | some _ =>
          match dictGet dp.1 e.2.2 with
          | none => some ⟨e.1, e.2.1, e.2.2, Status.UNREACHABLE, none, none⟩
          | some ⊤ => some ⟨e.1, e.2.1, e.2.2, Status.UNREACHABLE, none, none⟩
          | some (some q) =>
              match reconstruir_camino fuel dp.2 e.2.1 e.2.2 with
              | none => none
              | some camino =>
                  some ⟨e.1, e.2.1, e.2.2, Status.RESOLVED, some q, some camino⟩

/-- `procesar_envios(grafo, envios)` from the source: one result per shipment,
in input order. -/
def procesar_envios (fuel : Nat) (grafo : Graph) : List (Nat × Node × Node) → Option (List Resultado)
  | [] => some []
  | e :: es =>
      match procesar_uno fuel grafo e with
      | none => none
      | some r =>
          match procesar_envios fuel grafo es with
          | none => none
          | some rs => some (r :: rs)

/-- Weight of the directed edge `a → b`, read off the graph dictionary. -/
def edgeW (g : Graph) (a b : Node) : Option ℚ :=
  (dictGet g a).bind (fun ady => dictGet ady b)

/-- Sum of the weights of a list of consecutive node pairs; `some` forces
every pair to be an edge of the graph. -/
def sumAristas (g : Graph) : List (Node × Node) → Option ℚ
  | [] => some 0
  | pr :: ps =>
      match edgeW g pr.1 pr.2, sumAristas g ps with
      | some w, some s => some (w + s)
      | _, _ => none

/-- Every consecutive pair of the list is linked by the predecessor map:
`prev[b] = a`. -/
def ChainOK (prev : PrevMap) : List Node → Prop
  | [] => True
  | [_] => True
  | a :: b :: t => dictGet prev b = some (some a) ∧ ChainOK prev (b :: t)

/-- Every edge target of the graph is itself a key (the data-model closure
invariant; `construir_grafo` establishes it). -/
def Closed (g : Graph) : Prop :=
  ∀ p ∈ g, ∀ e ∈ p.2, e.1 ∈ g.map Prod.fst

/-- Every edge weight of the graph is non-negative (the data-model weight
invariant). -/
def NonNeg (g : Graph) : Prop :=
  ∀ p ∈ g, ∀ e ∈ p.2, 0 ≤ e.2

instance (g : Graph) : Decidable (Closed g) := by
  unfold Closed; infer_instance

instance (g : Graph) : Decidable (NonNeg g) := by
  unfold NonNeg; infer_instance

/-- The route table of the concrete scenario (`1.5` is exactly `3/2`). -/
def rutasEj : List (Node × Node × ℚ) :=
  [("A", "B", 5), ("A", "C", 10), ("B", "C", 3), ("C", "D", 3/2), ("B", "D", 9)]

/-- The graph of the concrete scenario. -/
def gEj : Graph := construir_grafo rutasEj

/-- The shipment batch of the concrete scenario. -/
def enviosEj : List (Nat × Node × Node) :=
  [(1, "A", "D"), (2, "B", "A"), (3, "A", "C"), (4, "Z", "A")]

/-- The expected resolution of the concrete scenario. -/
def resultadosEj : List Resultado :=
  [⟨1, "A", "D", Status.RESOLVED, some (19/2), some ["A", "B", "C", "D"]⟩,
   ⟨2, "B", "A", Status.UNREACHABLE, none, none⟩,
   ⟨3, "A", "C", Status.RESOLVED, some 8, some ["A", "B", "C"]⟩,
   ⟨4, "Z", "A", Status.ORIGIN_UNKNOWN, none, none⟩]

/-- The distance map `Dijkstra` computes from source `A` on the example. -/
def distEjA : DistMap :=
  [("A", ((0 : ℚ) : DVal)), ("B", ((5 : ℚ) : DVal)), ("C", ((8 : ℚ) : DVal)),
   ("D", ((19/2 : ℚ) : DVal))]

/-- The predecessor map `Dijkstra` computes from source `A` on the example. -/
def prevEjA : PrevMap :=
  [("A", none), ("B", some "A"), ("C", some "B"), ("D", some "C")]

/-! ### Association-list lemmas -/

theorem dictGet_mem {α : Type} {m : List (Node × α)} {k : Node} {v : α}
    (h : dictGet m k = some v) : (k, v) ∈ m := by
  induction m with
  | nil => simp [dictGet] at h
  | cons p rest ih =>
      by_cases hp : p.1 = k
      · simp only [dictGet, hp, if_pos, Option.some.injEq] at h
        have hpv : p = (k, v) := by
          cases p
          simp only at hp h
          simp [hp, h]
        rw [← hpv]
        exact List.mem_cons_self _ _
      · simp only [dictGet, hp, if_false, if_neg hp] at h
        exact List.mem_cons_of_mem _ (ih h)

theorem dictGet_eq_none {α : Type} {m : List (Node × α)} {k : Node} :
    dictGet m k = none ↔ k ∉ m.map Prod.fst := by
  induction m with
  | nil => simp [dictGet]
  | cons p rest ih =>
      by_cases hp : p.1 = k
      · simp [dictGet, hp]
      · simp [dictGet, hp, ih, Ne.symm hp]

theorem dictGet_isSome_of_mem_keys {α : Type} {m : List (Node × α)} {k : Node}
    (h : k ∈ m.map Prod.fst) : ∃ v, dictGet m k = some v := by
  cases hg : dictGet m k with
  | none => exact absurd (dictGet_eq_none.mp hg) (by simp [h])
  | some v => exact ⟨v, rfl⟩

theorem mem_keys_of_dictGet {α : Type} {m : List (Node × α)} {k : Node} {v : α}
    (h : dictGet m k = some v) : k ∈ m.map Prod.fst := by
  by_contra hk
  rw [← dictGet_eq_none] at hk
  simp [h] at hk

theorem dictGet_dictSet_self {α : Type} {m : List (Node × α)} {k : Node} {v : α} :
    dictGet (dictSet m k v) k = some v := by
  induction m with
  | nil => simp [dictSet, dictGet]
  | cons p rest ih =>
      by_cases hp : p.1 = k
      · simp [dictSet, hp, dictGet]
      · simp [dictSet, hp, dictGet, ih]

theorem dictGet_dictSet_ne {α : Type} {m : List (Node × α)} {k k' : Node} {v : α}
    (h : k' ≠ k) : dictGet (dictSet m k v) k' = dictGet m k' := by
  induction m with
  | nil => simp [dictSet, dictGet, Ne.symm h]
  | cons p rest ih =>
      by_cases hp : p.1 = k
      · simp [dictSet, hp, dictGet, Ne.symm h, hp.symm ▸ (Ne.symm h)]
      · by_cases hp' : p.1 = k'
        · simp [dictSet, hp, dictGet, hp', h]
        · simp [dictSet, hp, dictGet, hp', ih]

theorem mapfst_dictSet_mem {α : Type} {m : List (Node × α)} {k : Node} {v : α}
    (h : k ∈ m.map Prod.fst) : (dictSet m k v).map Prod.fst = m.map Prod.fst := by
  induction m with
  | nil => simp at h
  | cons p rest ih =>
      by_cases hp : p.1 = k
      · simp [dictSet, hp]
      · simp only [List.map_cons, List.mem_cons] at h
        rcases h with h | h
        · exact absurd h.symm hp
        · simp [dictSet, hp, ih h]

theorem dictSet_absent {α : Type} {m : List (Node × α)} {k : Node} {v : α}
    (h : k ∉ m.map Prod.fst) : dictSet m k v = m ++ [(k, v)] := by
  induction m with
  | nil => simp [dictSet]
  | cons p rest ih =>
      simp only [List.map_cons, List.mem_cons] at h
      push_neg at h
      simp [dictSet, Ne.symm h.1, ih h.2]

theorem mem_dictSet {α : Type} {m : List (Node × α)} {k : Node} {v : α} {p : Node × α}
    (h : p ∈ dictSet m k v) : p ∈ m ∨ p = (k, v) := by
  induction m with
  | nil => simp [dictSet] at h; simp [h]
  | cons q rest ih =>
      by_cases hq : q.1 = k
      · simp [dictSet, hq] at h
        rcases h with h | h
        · right; simp [h]
        · left; exact List.mem_cons_of_mem _ h
      · simp [dictSet, hq] at h
        rcases h with h | h
        · left; simp [h]
        · rcases ih h with h' | h'
          · left; exact List.mem_cons_of_mem _ h'
          · right; exact h'

theorem nodupKeys_dictSet {α : Type} {m : List (Node × α)} {k : Node} {v : α}
    (h : (m.map Prod.fst).Nodup) : ((dictSet m k v).map Prod.fst).Nodup := by
  by_cases hk : k ∈ m.map Prod.fst
  · rw [mapfst_dictSet_mem hk]; exact h
  · rw [dictSet_absent hk]
    simp only [List.map_append, List.map_cons, List.map_nil]
    exact List.Nodup.append h (List.nodup_singleton k)
      (fun a ha hak => hk ((List.mem_singleton.mp hak) ▸ ha))

theorem dictGet_of_mem_nodup {α : Type} {m : List (Node × α)} {k : Node} {v : α}
    (hnd : (m.map Prod.fst).Nodup) (h : (k, v) ∈ m) : dictGet m k = some v := by
  induction m with
  | nil => simp at h
  | cons p rest ih =>
      simp only [List.map_cons, List.nodup_cons] at hnd
      rcases List.mem_cons.mp h with h | h
      · simp [dictGet, ← h]
      · have hk : p.1 ≠ k := by
          intro he
          exact hnd.1 (he ▸ (List.mem_map.mpr ⟨(k, v), h, rfl⟩))
        simp [dictGet, hk, ih hnd.2 h]

theorem dictGet_map_const {α β : Type} {m : List (Node × α)} {k : Node} (c : β) :
    dictGet (m.map (fun p => (p.1, c))) k = (dictGet m k).map (fun _ => c) := by
  induction m with
  | nil => simp [dictGet]
  | cons p rest ih =>
      by_cases hp : p.1 = k
      · simp [dictGet, hp]
      · simp [dictGet, hp, ih]

theorem dictGet_append_left {α : Type} {m m' : List (Node × α)} {k : Node} {v : α}
    (h : dictGet m k = some v) : dictGet (m ++ m') k = some v := by
  induction m with
  | nil => simp [dictGet] at h
  | cons p rest ih =>
      by_cases hp : p.1 = k
      · simp [dictGet, hp] at h ⊢; exact h
      · simp [dictGet, hp] at h ⊢; exact ih h

/-! ### Heap lemmas -/

theorem popMinimo_perm (x : ℚ × Node) (xs : Cola) :
    List.Perm ((popMinimo x xs).1 :: (popMinimo x xs).2) (x :: xs) := by
  induction xs generalizing x with
  | nil => simp [popMinimo]
  | cons y ys ih =>
      simp only [popMinimo]
      by_cases hle : leLex x (popMinimo y ys).1 = true
      · simp [hle]
      · simp only [hle, if_false]
        exact (List.Perm.swap x (popMinimo y ys).1 (popMinimo y ys).2).trans
          (List.Perm.cons x (ih y))

theorem popMinimo_mem (x : ℚ × Node) (xs : Cola) {e : ℚ × Node} (h : e ∈ x :: xs) :
    e = (popMinimo x xs).1 ∨ e ∈ (popMinimo x xs).2 := by
  have := (popMinimo_perm x xs).mem_iff.mpr h
  simpa using this

theorem popMinimo_subset (x : ℚ × Node) (xs : Cola) {e : ℚ × Node}
    (h : e = (popMinimo x xs).1 ∨ e ∈ (popMinimo x xs).2) : e ∈ x :: xs := by
  exact (popMinimo_perm x xs).mem_iff.mp (by simpa using h)

/-! ### Distance-map reading lemmas -/

theorem dOf_dictSet_self {dist : DistMap} {v : Node} {d : DVal} :
    dOf (dictSet dist v d) v = d := by
  simp [dOf, dictGet_dictSet_self]

theorem dOf_dictSet_ne {dist : DistMap} {v w : Node} {d : DVal} (h : w ≠ v) :
    dOf (dictSet dist v d) w = dOf dist w := by
  simp [dOf, dictGet_dictSet_ne h]

theorem dOf_ne_top {dist : DistMap} {v : Node} (h : dOf dist v ≠ ⊤) :
    ∃ q : ℚ, dictGet dist v = some ((q : ℚ) : DVal) := by
  unfold dOf at h
  cases hg : dictGet dist v with
  | none => rw [hg] at h; simp at h
  | some d =>
      rw [hg] at h
      simp only [Option.getD_some] at h
      rcases WithTop.ne_top_iff_exists.mp h with ⟨q, hq⟩
      exact ⟨q, congrArg some hq.symm⟩

theorem dOf_mem_keys {dist : DistMap} {v : Node} (h : dOf dist v ≠ ⊤) :
    v ∈ dist.map Prod.fst := by
  rcases dOf_ne_top h with ⟨q, hq⟩
  exact mem_keys_of_dictGet hq

theorem dOf_coe_ne_top {dist : DistMap} {v : Node} {q : ℚ} (h : dOf dist v = (q : DVal)) :
    dOf dist v ≠ ⊤ := by
  rw [h]; exact WithTop.coe_ne_top

/-- A pending heap entry for node `a` at least as small as its recorded
distance (together with the heap upper-bound invariant this pins the entry to
the exact recorded distance). -/
def Pendiente (heap : Cola) (dist : DistMap) (a : Node) : Prop :=
  ∃ d : ℚ, (d, a) ∈ heap ∧ (d : DVal) ≤ dOf dist a

/-- The loop invariant of `Dijkstra`, over graph `g`, source `origen`, and the
current state of the distance map, predecessor map and heap. -/
structure Invariante (g : Graph) (origen : Node) (dist : DistMap) (prev : PrevMap)
    (heap : Cola) : Prop where
  keysD : dist.map Prod.fst = g.map Prod.fst
  keysP : prev.map Prod.fst = g.map Prod.fst
  hJ : ∀ e ∈ heap, dOf dist e.2 ≤ (e.1 : DVal)
  hN : ∀ e ∈ heap, (0 : ℚ) ≤ e.1
  hO : dOf dist origen = ((0 : ℚ) : DVal)
  hK : ∀ v a, dictGet prev v = some (some a) → dOf dist a ≠ ⊤ ∧ dOf dist v ≠ ⊤
  hL : ∀ v, dOf dist v ≠ ⊤ → v = origen ∨ ∃ a, dictGet prev v = some (some a)
  hP : ∀ v a, dictGet prev v = some (some a) →
    ∃ ady w, dictGet g a = some ady ∧ (v, w) ∈ ady ∧ dOf dist a + (w : DVal) ≤ dOf dist v
  hI : ∀ x ady, dictGet g x = some ady → ∀ e ∈ ady,
    dOf dist e.1 ≤ dOf dist x + (e.2 : DVal) ∨ Pendiente heap dist x

/-- The invariant of the inner relaxation loop, with the edges of the popped
node `u` still to be processed recorded in `todo`. -/
structure FInv (g : Graph) (origen u : Node) (du : ℚ) (todo : Adj)
    (st : DistMap × PrevMap × Cola) : Prop where
  keysD : st.1.map Prod.fst = g.map Prod.fst
  keysP : st.2.1.map Prod.fst = g.map Prod.fst
  hJ : ∀ e ∈ st.2.2, dOf st.1 e.2 ≤ (e.1 : DVal)
  hN : ∀ e ∈ st.2.2, (0 : ℚ) ≤ e.1
  hO : dOf st.1 origen = ((0 : ℚ) : DVal)
  hK : ∀ v a, dictGet st.2.1 v = some (some a) → dOf st.1 a ≠ ⊤ ∧ dOf st.1 v ≠ ⊤
  hL : ∀ v, dOf st.1 v ≠ ⊤ → v = origen ∨ ∃ a, dictGet st.2.1 v = some (some a)
  hP : ∀ v a, dictGet st.2.1 v = some (some a) →
    ∃ ady w, dictGet g a = some ady ∧ (v, w) ∈ ady ∧ dOf st.1 a + (w : DVal) ≤ dOf st.1 v
  hI : ∀ x ady, dictGet g x = some ady → ∀ e ∈ ady,
    dOf st.1 e.1 ≤ dOf st.1 x + (e.2 : DVal) ∨ Pendiente st.2.2 st.1 x ∨ (x = u ∧ e ∈ todo)
  hB : dOf st.1 u ≤ (du : DVal)
  hU : dOf st.1 u = (du : DVal) ∨ Pendiente st.2.2 st.1 u

theorem ne_top_of_le_coe {a : DVal} {q : ℚ} (h : a ≤ (q : DVal)) : a ≠ ⊤ := by
  intro ht
  rw [ht] at h
  exact WithTop.coe_ne_top (top_le_iff.mp h)

theorem relaxStep_finv {g : Graph} {origen u : Node} {du : ℚ}
    (hC : Closed g) (hW : NonNeg g) (hdu : 0 ≤ du)
    {ady0 : Adj} (hady : dictGet g u = some ady0)
    {e : Node × ℚ} (he : e ∈ ady0) {todo : Adj}
    {st : DistMap × PrevMap × Cola}
    (h : FInv g origen u du (e :: todo) st) :
    FInv g origen u du todo (relaxStep u du st e) := by
  obtain ⟨D, P, H⟩ := st
  have hpes : (0 : ℚ) ≤ e.2 := hW _ (dictGet_mem hady) e he
  have halt : (0 : ℚ) ≤ du + e.2 := add_nonneg hdu hpes
  have hBu : dOf D u ≤ (du : DVal) := h.hB
  simp only [relaxStep]
  by_cases hlt : ((du + e.2 : ℚ) : DVal) < dOf D e.1
  · rw [if_pos hlt]
    have hvu : e.1 ≠ u := by
      intro hvu
      rw [hvu] at hlt
      have hlt' := lt_of_lt_of_le hlt hBu
      rw [WithTop.coe_lt_coe] at hlt'
      linarith
    have hvO : e.1 ≠ origen := by
      intro hvo
      rw [hvo, h.hO, WithTop.coe_lt_coe] at hlt
      linarith
    have hvg : e.1 ∈ g.map Prod.fst := hC _ (dictGet_mem hady) e he
    have hvD : e.1 ∈ D.map Prod.fst := by rw [h.keysD]; exact hvg
    have hvP : e.1 ∈ P.map Prod.fst := by rw [h.keysP]; exact hvg
    have hmono : ∀ x, dOf (dictSet D e.1 ((du + e.2 : ℚ) : DVal)) x ≤ dOf D x := by
      intro x
      by_cases hxe : x = e.1
      · subst hxe
        rw [dOf_dictSet_self]
        exact le_of_lt hlt
      · rw [dOf_dictSet_ne hxe]
    have hnt : ∀ x, dOf D x ≠ ⊤ → dOf (dictSet D e.1 ((du + e.2 : ℚ) : DVal)) x ≠ ⊤ := by
      intro x hx
      by_cases hxe : x = e.1
      · subst hxe
        rw [dOf_dictSet_self]
        exact WithTop.coe_ne_top
      · rw [dOf_dictSet_ne hxe]
        exact hx
    refine ⟨?_, ?_, ?_, ?_, ?_, ?_, ?_, ?_, ?_, ?_, ?_⟩
    · show (dictSet D e.1 _).map Prod.fst = g.map Prod.fst
      rw [mapfst_dictSet_mem hvD]
      exact h.keysD
    · show (dictSet P e.1 _).map Prod.fst = g.map Prod.fst
      rw [mapfst_dictSet_mem hvP]
      exact h.keysP
    · intro e' he'
      rcases List.mem_append.mp he' with hH | hnew
      · exact le_trans (hmono e'.2) (h.hJ e' hH)
      · rw [List.mem_singleton] at hnew
        subst hnew
        show dOf (dictSet D e.1 _) e.1 ≤ _
        rw [dOf_dictSet_self]
    · intro e' he'
      rcases List.mem_append.mp he' with hH | hnew
      · exact h.hN e' hH
      · rw [List.mem_singleton] at hnew
        subst hnew
        exact halt
    · show dOf (dictSet D e.1 _) origen = _
      rw [dOf_dictSet_ne (Ne.symm hvO)]
      exact h.hO
    · intro w a hwa
      by_cases hw : w = e.1
      · subst hw
        rw [dictGet_dictSet_self] at hwa
        simp only [Option.some.injEq] at hwa
        subst hwa
        constructor
        · rw [dOf_dictSet_ne (Ne.symm hvu)]
          exact ne_top_of_le_coe hBu
        · rw [dOf_dictSet_self]
          exact WithTop.coe_ne_top
      · rw [dictGet_dictSet_ne hw] at hwa
        obtain ⟨ha, hw'⟩ := h.hK w a hwa
        exact ⟨hnt a ha, hnt w hw'⟩
    · intro x hx
      by_cases hxe : x = e.1
      · subst hxe
        exact Or.inr ⟨u, dictGet_dictSet_self⟩
      · rw [dOf_dictSet_ne hxe] at hx
        rcases h.hL x hx with ho | ⟨a, ha⟩
        · exact Or.inl ho
        · refine Or.inr ⟨a, ?_⟩
          rw [dictGet_dictSet_ne hxe]
          exact ha
    · intro w a hwa
      by_cases hw : w = e.1
      · subst hw
        rw [dictGet_dictSet_self] at hwa
        simp only [Option.some.injEq] at hwa
        subst hwa
        refine ⟨ady0, e.2, hady, ?_, ?_⟩
        · rw [Prod.mk.eta]
          exact he
        · rw [dOf_dictSet_self, dOf_dictSet_ne (Ne.symm hvu)]
          calc dOf D u + (e.2 : DVal) ≤ (du : DVal) + (e.2 : DVal) := add_le_add_right hBu _
            _ = ((du + e.2 : ℚ) : DVal) := (WithTop.coe_add du e.2).symm
      · rw [dictGet_dictSet_ne hw] at hwa
        obtain ⟨ady, w', hga, hmem, hle⟩ := h.hP w a hwa
        refine ⟨ady, w', hga, hmem, ?_⟩
        rw [dOf_dictSet_ne hw]
        exact le_trans (add_le_add_right (hmono a) _) hle
    · intro x ady hga e' he'
      rcases h.hI x ady hga e' he' with hc | hc | ⟨hxu, hin⟩
      · by_cases hx : x = e.1
        · subst hx
          refine Or.inr (Or.inl ⟨du + e.2, List.mem_append_right _ (List.mem_singleton_self _), ?_⟩)
          rw [dOf_dictSet_self]
        · left
          rw [dOf_dictSet_ne hx]
          exact le_trans (hmono e'.1) hc
      · by_cases hx : x = e.1
        · subst hx
          refine Or.inr (Or.inl ⟨du + e.2, List.mem_append_right _ (List.mem_singleton_self _), ?_⟩)
          rw [dOf_dictSet_self]
        · rcases hc with ⟨d, hdH, hdle⟩
          refine Or.inr (Or.inl ⟨d, List.mem_append_left _ hdH, ?_⟩)
          rw [dOf_dictSet_ne hx]
          exact hdle
      · rcases List.mem_cons.mp hin with heq | hin'
        · subst hxu
          subst heq
          rcases h.hU with hU | hU
          · left
            rw [dOf_dictSet_self, dOf_dictSet_ne (Ne.symm hvu), hU, ← WithTop.coe_add]
          · rcases hU with ⟨d, hdH, hdle⟩
            refine Or.inr (Or.inl ⟨d, List.mem_append_left _ hdH, ?_⟩)
            rw [dOf_dictSet_ne (Ne.symm hvu)]
            exact hdle
        · exact Or.inr (Or.inr ⟨hxu, hin'⟩)
    · show dOf (dictSet D e.1 _) u ≤ _
      rw [dOf_dictSet_ne (Ne.symm hvu)]
      exact hBu
    · rcases h.hU with hU | hU
      · left
        show dOf (dictSet D e.1 _) u = _
        rw [dOf_dictSet_ne (Ne.symm hvu)]
        exact hU
      · rcases hU with ⟨d, hdH, hdle⟩
        refine Or.inr ⟨d, List.mem_append_left _ hdH, ?_⟩
        show (d : DVal) ≤ dOf (dictSet D e.1 _) u
        rw [dOf_dictSet_ne (Ne.symm hvu)]
        exact hdle
  · rw [if_neg hlt]
    refine ⟨h.keysD, h.keysP, h.hJ, h.hN, h.hO, h.hK, h.hL, h.hP, ?_, h.hB, h.hU⟩
    intro x ady hga e' he'
    rcases h.hI x ady hga e' he' with hc | hc | ⟨hxu, hin⟩
    · exact Or.inl hc
    · exact Or.inr (Or.inl hc)
    · rcases List.mem_cons.mp hin with heq | hin'
      · subst hxu
        subst heq
        rcases h.hU with hU | hU
        · left
          rw [hU, ← WithTop.coe_add]
          exact not_lt.mp hlt
        · exact Or.inr (Or.inl hU)
      · exact Or.inr (Or.inr ⟨hxu, hin'⟩)

theorem relaxAll_finv {g : Graph} {origen u : Node} {du : ℚ}
    (hC : Closed g) (hW : NonNeg g) (hdu : 0 ≤ du)
    {ady0 : Adj} (hady : dictGet g u = some ady0) :
    ∀ (todo : Adj) (st : DistMap × PrevMap × Cola), (∀ e ∈ todo, e ∈ ady0) →
      FInv g origen u du todo st → FInv g origen u du [] (relaxAll u du todo st) := by
  intro todo
  induction todo with
  | nil =>
      intro st _ h
      exact h
  | cons e es ih =>
      intro st hsub h
      show FInv g origen u du [] (relaxAll u du es (relaxStep u du st e))
      exact ih _ (fun e' he' => hsub e' (List.mem_cons_of_mem _ he'))
        (relaxStep_finv hC hW hdu hady (hsub e (List.mem_cons_self _ _)) h)

theorem finv_to_inv {g : Graph} {origen u : Node} {du : ℚ}
    {st : DistMap × PrevMap × Cola} (h : FInv g origen u du [] st) :
    Invariante g origen st.1 st.2.1 st.2.2 := by
  refine ⟨h.keysD, h.keysP, h.hJ, h.hN, h.hO, h.hK, h.hL, h.hP, ?_⟩
  intro x ady hga e he
  rcases h.hI x ady hga e he with hc | hc | ⟨_, hfalse⟩
  · exact Or.inl hc
  · exact Or.inr hc
  · exact absurd hfalse (List.not_mem_nil e)

theorem paso_inv {g : Graph} {origen : Node} (hC : Closed g) (hW : NonNeg g)
    {dist : DistMap} {prev : PrevMap} {x : ℚ × Node} {xs : Cola}
    (h : Invariante g origen dist prev (x :: xs)) :
    Invariante g origen (dijkstraPaso g dist prev (popMinimo x xs)).1
      (dijkstraPaso g dist prev (popMinimo x xs)).2.1
      (dijkstraPaso g dist prev (popMinimo x xs)).2.2 := by
  have hpop : (popMinimo x xs).1 ∈ x :: xs := popMinimo_subset x xs (Or.inl rfl)
  have hJpop : dOf dist (popMinimo x xs).1.2 ≤ ((popMinimo x xs).1.1 : DVal) :=
    h.hJ _ hpop
  have hNpop : (0 : ℚ) ≤ (popMinimo x xs).1.1 := h.hN _ hpop
  have hrest : ∀ e ∈ (popMinimo x xs).2, e ∈ x :: xs :=
    fun e he => popMinimo_subset x xs (Or.inr he)
  simp only [dijkstraPaso]
  by_cases hstale : dOf dist (popMinimo x xs).1.2 < ((popMinimo x xs).1.1 : DVal)
  · rw [if_pos hstale]
    refine ⟨h.keysD, h.keysP, fun e he => h.hJ e (hrest e he),
      fun e he => h.hN e (hrest e he), h.hO, h.hK, h.hL, h.hP, ?_⟩
    intro y ady hga e he
    rcases h.hI y ady hga e he with hc | ⟨d, hdmem, hdle⟩
    · exact Or.inl hc
    · rcases popMinimo_mem x xs hdmem with heq | hin
      · exfalso
        have h1 : (d : DVal) ≤ dOf dist (popMinimo x xs).1.2 := by
          rw [← congrArg Prod.snd heq]
          exact hdle
        have h2 : ((popMinimo x xs).1.1 : DVal) ≤ dOf dist (popMinimo x xs).1.2 := by
          rw [← congrArg Prod.fst heq]
          exact h1
        exact absurd (lt_of_le_of_lt h2 hstale) (lt_irrefl _)
      · exact Or.inr ⟨d, hin, hdle⟩
  · rw [if_neg hstale]
    have hEq : dOf dist (popMinimo x xs).1.2 = ((popMinimo x xs).1.1 : DVal) :=
      le_antisymm hJpop (not_lt.mp hstale)
    cases hady : dictGet g (popMinimo x xs).1.2 with
    | none =>
        show Invariante g origen
          (relaxAll _ _ [] (dist, prev, (popMinimo x xs).2)).1 _ _
        refine ⟨h.keysD, h.keysP, fun e he => h.hJ e (hrest e he),
          fun e he => h.hN e (hrest e he), h.hO, h.hK, h.hL, h.hP, ?_⟩
        intro y ady hga e he
        rcases h.hI y ady hga e he with hc | ⟨d, hdmem, hdle⟩
        · exact Or.inl hc
        · rcases popMinimo_mem x xs hdmem with heq | hin
          · exfalso
            have hyu : y = (popMinimo x xs).1.2 := by
              rw [← congrArg Prod.snd heq]
            rw [hyu, hady] at hga
            exact Option.noConfusion hga
          · exact Or.inr ⟨d, hin, hdle⟩
    | some ady0 =>
        have hstart : FInv g origen (popMinimo x xs).1.2 (popMinimo x xs).1.1 ady0
            (dist, prev, (popMinimo x xs).2) := by
          refine ⟨h.keysD, h.keysP, fun e he => h.hJ e (hrest e he),
            fun e he => h.hN e (hrest e he), h.hO, h.hK, h.hL, h.hP, ?_,
            hJpop, Or.inl hEq⟩
          intro y ady hga e he
          rcases h.hI y ady hga e he with hc | ⟨d, hdmem, hdle⟩
          · exact Or.inl hc
          · rcases popMinimo_mem x xs hdmem with heq | hin
            · have hyu : y = (popMinimo x xs).1.2 := by
                rw [← congrArg Prod.snd heq]
              refine Or.inr (Or.inr ⟨hyu, ?_⟩)
              rw [hyu, hady] at hga
              have hae : ady = ady0 := by
                injection hga with hae'
                exact hae'.symm
              rw [← hae]
              exact he
            · exact Or.inr (Or.inl ⟨d, hin, hdle⟩)
        have hfin := relaxAll_finv hC hW hNpop hady ady0
          (dist, prev, (popMinimo x xs).2) (fun e he => he) hstart
        have := finv_to_inv hfin
        simpa [hady] using this

theorem dijkstraLoop_inv {g : Graph} {origen : Node} (hC : Closed g) (hW : NonNeg g) :
    ∀ (fuel : Nat) (dist : DistMap) (prev : PrevMap) (heap : Cola)
      (dp : DistMap × PrevMap), dijkstraLoop g fuel dist prev heap = some dp →
      Invariante g origen dist prev heap → Invariante g origen dp.1 dp.2 [] := by
  intro fuel
  induction fuel with
  | zero =>
      intro dist prev heap dp hrun h
      cases heap with
      | nil =>
          simp only [dijkstraLoop, Option.some.injEq] at hrun
          rw [← hrun]
          exact h
      | cons x xs => simp [dijkstraLoop] at hrun
  | succ fuel ih =>
      intro dist prev heap dp hrun h
      cases heap with
      | nil =>
          simp only [dijkstraLoop, Option.some.injEq] at hrun
          rw [← hrun]
          exact h
      | cons x xs =>
          rw [dijkstraLoop] at hrun
          exact ih _ _ _ dp hrun (paso_inv hC hW h)

theorem mapfst_initDist (g : Graph) : (initDist g).map Prod.fst = g.map Prod.fst := by
  simp [initDist, List.map_map, Function.comp]

theorem mapfst_initPrev (g : Graph) : (initPrev g).map Prod.fst = g.map Prod.fst := by
  simp [initPrev, List.map_map, Function.comp]

theorem dOf_initDist (g : Graph) (x : Node) : dOf (initDist g) x = ⊤ := by
  unfold dOf initDist
  rw [dictGet_map_const]
  cases dictGet g x <;> simp

theorem dictGet_initPrev_some {g : Graph} {v : Node} {p : Option Node}
    (h : dictGet (initPrev g) v = some p) : p = none := by
  unfold initPrev at h
  rw [dictGet_map_const] at h
  cases hg : dictGet g v with
  | none => rw [hg] at h; simp at h
  | some a => rw [hg] at h; simp at h; exact h.symm

theorem inv_inicial {g : Graph} {origen : Node} {ady : Adj}
    (hsrc : dictGet g origen = some ady) :
    Invariante g origen (dictSet (initDist g) origen ((0 : ℚ) : DVal)) (initPrev g)
      [((0 : ℚ), origen)] := by
  have hmemD : origen ∈ (initDist g).map Prod.fst := by
    rw [mapfst_initDist]
    exact mem_keys_of_dictGet hsrc
  have hO0 : dOf (dictSet (initDist g) origen ((0 : ℚ) : DVal)) origen = ((0 : ℚ) : DVal) :=
    dOf_dictSet_self
  have hTop : ∀ x, x ≠ origen →
      dOf (dictSet (initDist g) origen ((0 : ℚ) : DVal)) x = ⊤ := by
    intro x hx
    rw [dOf_dictSet_ne hx]
    exact dOf_initDist g x
  refine ⟨?_, mapfst_initPrev g, ?_, ?_, hO0, ?_, ?_, ?_, ?_⟩
  · rw [mapfst_dictSet_mem hmemD]
    exact mapfst_initDist g
  · intro e he
    rw [List.mem_singleton] at he
    subst he
    rw [hO0]
  · intro e he
    rw [List.mem_singleton] at he
    subst he
    exact le_refl 0
  · intro v a hva
    exact absurd (dictGet_initPrev_some hva) (Option.some_ne_none a)
  · intro v hv
    by_cases hvo : v = origen
    · exact Or.inl hvo
    · exact absurd (hTop v hvo) hv
  · intro v a hva
    exact absurd (dictGet_initPrev_some hva) (Option.some_ne_none a)
  · intro x ady' hga e he
    by_cases hxo : x = origen
    · subst hxo
      refine Or.inr ⟨0, List.mem_singleton_self _, ?_⟩
      rw [hO0]
    · left
      rw [hTop x hxo, top_add]
      exact le_top

theorem Dijkstra_inv {fuel : Nat} {g : Graph} {origen : Node} {ady : Adj}
    {dist : DistMap} {prev : PrevMap}
    (hC : Closed g) (hW : NonNeg g)
    (hsrc : dictGet g origen = some ady)
    (hrun : Dijkstra fuel g origen = some (dist, prev)) :
    Invariante g origen dist prev [] := by
  unfold Dijkstra at hrun
  rw [hsrc] at hrun
  exact dijkstraLoop_inv hC hW fuel _ _ _ (dist, prev) hrun (inv_inicial hsrc)

/-! ### Consequences of the invariant at termination (empty heap) -/

theorem inv_final_noimprove {g : Graph} {origen : Node} {dist : DistMap} {prev : PrevMap}
    (h : Invariante g origen dist prev []) :
    ∀ x ady, dictGet g x = some ady → ∀ e ∈ ady,
      dOf dist e.1 ≤ dOf dist x + (e.2 : DVal) := by
  intro x ady hga e he
  rcases h.hI x ady hga e he with hc | ⟨d, hd, _⟩
  · exact hc
  · exact absurd hd (List.not_mem_nil _)

theorem dOf_of_dictGet {dist : DistMap} {v : Node} {d : DVal}
    (h : dictGet dist v = some d) : dOf dist v = d := by
  unfold dOf
  rw [h]
  rfl

theorem dictGet_of_dOf_coe {dist : DistMap} {v : Node} {q : ℚ}
    (h : dOf dist v = (q : DVal)) : dictGet dist v = some ((q : ℚ) : DVal) := by
  rcases dOf_ne_top (dOf_coe_ne_top h) with ⟨q', hq'⟩
  have : dOf dist v = ((q' : ℚ) : DVal) := dOf_of_dictGet hq'
  rw [h] at this
  rw [hq', ← this]

/-! ### Path reconstruction on a terminated run -/

theorem chainOK_concat {prev : PrevMap} :
    ∀ {l : List Node} {a b : Node}, ChainOK prev l → l.getLast? = some a →
      dictGet prev b = some (some a) → ChainOK prev (l ++ [b])
  | [], a, b, _, hl, _ => by simp at hl
  | [x], a, b, _, hl, hab => by
      simp only [List.getLast?_singleton, Option.some.injEq] at hl
      subst hl
      exact ⟨hab, trivial⟩
  | x :: y :: t, a, b, h, hl, hab => by
      rw [List.getLast?_cons_cons] at hl
      exact ⟨h.1, chainOK_concat h.2 hl hab⟩

theorem reconstruirLoop_ok {g : Graph} {origen : Node} {dist : DistMap} {prev : PrevMap}
    (hfin : Invariante g origen dist prev []) :
    ∀ (fuel : Nat) (u : Node) (acc out : List Node),
      dOf dist u ≠ ⊤ →
      reconstruirLoop fuel prev origen (some u) acc = some out →
      ∃ seg : List Node, out = seg ++ acc ∧ seg ≠ [] ∧ seg.getLast? = some u ∧
        seg.head? = some origen ∧ ChainOK prev seg := by
  intro fuel
  induction fuel with
  | zero =>
      intro u acc out _ hrun
      simp [reconstruirLoop] at hrun
  | succ fuel ih =>
      intro u acc out hu hrun
      by_cases huo : u = origen
      · subst huo
        simp only [reconstruirLoop, eq_self_iff_true, if_true, Option.some.injEq] at hrun
        exact ⟨[u], by rw [← hrun]; rfl, by simp, by simp, by simp, trivial⟩
      · rcases hfin.hL u hu with ho | ⟨a, ha⟩
        · exact absurd ho huo
        · have hafin : dOf dist a ≠ ⊤ := (hfin.hK u a ha).1
          simp only [reconstruirLoop, if_neg huo] at hrun
          rw [ha] at hrun
          obtain ⟨seg', hout, hne, hlast, hhead, hchain⟩ := ih a (u :: acc) out hafin hrun
          refine ⟨seg' ++ [u], ?_, by simp, List.getLast?_concat _, ?_, ?_⟩
          · rw [hout, List.append_assoc]
            rfl
          · cases seg' with
            | nil => exact absurd rfl hne
            | cons c t =>
                simp only [List.cons_append, List.head?_cons] at hhead ⊢
                exact hhead
          · exact chainOK_concat hchain hlast ha

theorem reconstruir_ok {g : Graph} {origen : Node} {dist : DistMap} {prev : PrevMap}
    {fuel : Nat} {destino : Node} {camino : List Node} {q : ℚ}
    (hfin : Invariante g origen dist prev [])
    (hdist : dictGet dist destino = some ((q : ℚ) : DVal))
    (hrec : reconstruir_camino fuel prev origen destino = some camino) :
    camino ≠ [] ∧ camino.head? = some origen ∧ camino.getLast? = some destino ∧
      ChainOK prev camino := by
  have hdtop : dOf dist destino ≠ ⊤ := dOf_coe_ne_top (dOf_of_dictGet hdist)
  have hdkeys : destino ∈ prev.map Prod.fst := by
    rw [hfin.keysP, ← hfin.keysD]
    exact mem_keys_of_dictGet hdist
  obtain ⟨p0, hp0⟩ := dictGet_isSome_of_mem_keys hdkeys
  cases hloop : reconstruirLoop fuel prev origen (some destino) [] with
  | none =>
      unfold reconstruir_camino at hrec
      rw [hp0] at hrec
      dsimp only at hrec
      rw [hloop] at hrec
      exact Option.noConfusion hrec
  | some out =>
      unfold reconstruir_camino at hrec
      rw [hp0] at hrec
      dsimp only at hrec
      rw [hloop] at hrec
      obtain ⟨seg, hout, hne, hlast, hhead, hchain⟩ :=
        reconstruirLoop_ok hfin fuel destino [] out hdtop hloop
      rw [List.append_nil] at hout
      subst hout
      cases out with
      | nil => exact absurd rfl hne
      | cons c rest =>
          simp only [List.head?_cons, Option.some.injEq] at hhead
          dsimp only at hrec
          rw [if_pos hhead] at hrec
          injection hrec with hrec'
          rw [← hrec']
          exact ⟨by simp, by simp [hhead], hlast, hchain⟩

/-! ### Telescoping the edge weights along a predecessor chain -/

theorem telescopio {g : Graph} {origen : Node} {dist : DistMap} {prev : PrevMap}
    (hfin : Invariante g origen dist prev [])
    (hnd : ∀ p ∈ g, (p.2.map Prod.fst).Nodup) :
    ∀ (c : List Node) (a : Node) (qa : ℚ), dictGet dist a = some ((qa : ℚ) : DVal) →
      ChainOK prev (a :: c) →
      ∃ (s qz : ℚ) (z : Node), sumAristas g ((a :: c).zip c) = some s ∧
        (a :: c).getLast? = some z ∧ dictGet dist z = some ((qz : ℚ) : DVal) ∧
        qz = qa + s := by
  intro c
  induction c with
  | nil =>
      intro a qa hqa _
      exact ⟨0, qa, a, rfl, rfl, hqa, by ring⟩
  | cons b t ih =>
      intro a qa hqa hchain
      obtain ⟨hlink, hchain'⟩ := hchain
      obtain ⟨ady, w, hga, hmem, hle⟩ := hfin.hP b a hlink
      have himp : dOf dist b ≤ dOf dist a + (w : DVal) :=
        inv_final_noimprove hfin a ady hga (b, w) hmem
      have hb : dOf dist b = ((qa + w : ℚ) : DVal) := by
        rw [WithTop.coe_add]
        rw [← dOf_of_dictGet hqa]
        exact le_antisymm himp hle
      obtain ⟨s', qz, z, hsum', hlast', hqz, heq⟩ := ih b (qa + w) (dictGet_of_dOf_coe hb) hchain'
      have hadyget : dictGet ady b = some w :=
        dictGet_of_mem_nodup (hnd _ (dictGet_mem hga)) hmem
      refine ⟨w + s', qz, z, ?_, ?_, hqz, by rw [heq]; ring⟩
      · show sumAristas g ((a, b) :: (b :: t).zip t) = some (w + s')
        unfold sumAristas
        rw [show edgeW g a b = some w from by unfold edgeW; rw [hga]; exact hadyget, hsum']
      · rw [List.getLast?_cons_cons]
        exact hlast'

theorem sumAristas_mem_isSome {g : Graph} :
    ∀ {ps : List (Node × Node)} {s : ℚ}, sumAristas g ps = some s →
      ∀ pr ∈ ps, (edgeW g pr.1 pr.2).isSome := by
  intro ps
  induction ps with
  | nil => intro s _ pr hpr; exact absurd hpr (List.not_mem_nil _)
  | cons p rest ih =>
      intro s hsum pr hpr
      unfold sumAristas at hsum
      cases hew : edgeW g p.1 p.2 with
      | none => rw [hew] at hsum; simp at hsum
      | some w =>
          rw [hew] at hsum
          cases hrest : sumAristas g rest with
          | none => rw [hrest] at hsum; simp at hsum
          | some s' =>
              rcases List.mem_cons.mp hpr with hpp | hpp
              · subst hpp
                rw [hew]
                rfl
              · exact ih hrest pr hpp

/-! ### Structure of the built graph -/

theorem addNode_mem_self (ns : List Node) (n : Node) : n ∈ addNode ns n := by
  unfold addNode
  by_cases h : n ∈ ns <;> simp [h]

theorem addNode_mono {ns : List Node} {m : Node} (n : Node) (h : m ∈ ns) :
    m ∈ addNode ns n := by
  unfold addNode
  by_cases h' : n ∈ ns <;> simp [h', h]

theorem dictGet_append_none {α : Type} {m m' : List (Node × α)} {k : Node}
    (h : dictGet m k = none) : dictGet (m ++ m') k = dictGet m' k := by
  induction m with
  | nil => simp
  | cons p rest ih =>
      by_cases hp : p.1 = k
      · simp [dictGet, hp] at h
      · simp only [dictGet, hp, if_false, if_neg hp] at h ⊢
        exact ih h

theorem recorrer_inv :
    ∀ (rs : List (Node × Node × ℚ)) (g : Graph) (nodos : List Node),
      (∀ p ∈ g, ∀ e ∈ p.2, e.1 ∈ nodos) →
      (∀ p ∈ g, p.1 ∈ nodos) →
      (∀ p ∈ g, (p.2.map Prod.fst).Nodup) →
      (∀ p ∈ (recorrerRutas rs g nodos).1, ∀ e ∈ p.2, e.1 ∈ (recorrerRutas rs g nodos).2) ∧
      (∀ p ∈ (recorrerRutas rs g nodos).1, p.1 ∈ (recorrerRutas rs g nodos).2) ∧
      (∀ p ∈ (recorrerRutas rs g nodos).1, (p.2.map Prod.fst).Nodup) ∧
      (∀ n ∈ nodos, n ∈ (recorrerRutas rs g nodos).2) ∧
      (∀ r ∈ rs, r.1 ∈ (recorrerRutas rs g nodos).2 ∧ r.2.1 ∈ (recorrerRutas rs g nodos).2) := by
  intro rs
  induction rs with
  | nil =>
      intro g nodos hTN hKN hND
      exact ⟨hTN, hKN, hND, fun n hn => hn, fun r hr => absurd hr (List.not_mem_nil r)⟩
  | cons r rs ih =>
      intro g nodos hTN hKN hND
      obtain ⟨o, d, w⟩ := r
      have hmono : ∀ n ∈ nodos, n ∈ addNode (addNode nodos o) d :=
        fun n hn => addNode_mono d (addNode_mono o hn)
      have hod : o ∈ addNode (addNode nodos o) d := addNode_mono d (addNode_mem_self nodos o)
      have hdd : d ∈ addNode (addNode nodos o) d := addNode_mem_self _ d
      have hstep : ∀ p ∈ agregarRuta g o d w,
          (∀ e ∈ p.2, e.1 ∈ addNode (addNode nodos o) d) ∧
          p.1 ∈ addNode (addNode nodos o) d ∧
          (p.2.map Prod.fst).Nodup := by
        intro p hp
        unfold agregarRuta at hp
        cases hg : dictGet g o with
        | some ady =>
            rw [hg] at hp
            rcases mem_dictSet hp with hold | hnew
            · exact ⟨fun e he => hmono _ (hTN p hold e he), hmono _ (hKN p hold), hND p hold⟩
            · have hady : (o, ady) ∈ g := dictGet_mem hg
              subst hnew
              refine ⟨?_, hod, nodupKeys_dictSet (hND _ hady)⟩
              intro e he
              rcases mem_dictSet he with hold' | hnew'
              · exact hmono _ (hTN _ hady e hold')
              · rw [hnew']
                exact hdd
        | none =>
            rw [hg] at hp
            rcases mem_dictSet hp with hold | hnew
            · exact ⟨fun e he => hmono _ (hTN p hold e he), hmono _ (hKN p hold), hND p hold⟩
            · subst hnew
              refine ⟨?_, hod, by simp⟩
              intro e he
              rw [List.mem_singleton] at he
              rw [he]
              exact hdd
      have := ih (agregarRuta g o d w) (addNode (addNode nodos o) d)
        (fun p hp => (hstep p hp).1)
        (fun p hp => (hstep p hp).2.1)
        (fun p hp => (hstep p hp).2.2)
      obtain ⟨hTN', hKN', hND', hmono', hrs'⟩ := this
      refine ⟨hTN', hKN', hND', fun n hn => hmono' n (hmono n hn), ?_⟩
      intro r' hr'
      rcases List.mem_cons.mp hr' with heq | htail
      · rw [heq]
        exact ⟨hmono' o hod, hmono' d hdd⟩
      · exact hrs' r' htail

theorem recorrer_nonneg :
    ∀ (rs : List (Node × Node × ℚ)) (g : Graph) (nodos : List Node),
      (∀ r ∈ rs, 0 ≤ r.2.2) →
      (∀ p ∈ g, ∀ e ∈ p.2, 0 ≤ e.2) →
      ∀ p ∈ (recorrerRutas rs g nodos).1, ∀ e ∈ p.2, 0 ≤ e.2 := by
  intro rs
  induction rs with
  | nil =>
      intro g nodos _ hNN
      exact hNN
  | cons r rs ih =>
      intro g nodos hw hNN
      obtain ⟨o, d, w⟩ := r
      have hstep : ∀ p ∈ agregarRuta g o d w, ∀ e ∈ p.2, 0 ≤ e.2 := by
        intro p hp
        unfold agregarRuta at hp
        cases hg : dictGet g o with
        | some ady =>
            rw [hg] at hp
            rcases mem_dictSet hp with hold | hnew
            · exact hNN p hold
            · have hady : (o, ady) ∈ g := dictGet_mem hg
              subst hnew
              intro e he
              rcases mem_dictSet he with hold' | hnew'
              · exact hNN _ hady e hold'
              · rw [hnew']
                exact hw (o, d, w) (List.mem_cons_self _ _)
        | none =>
            rw [hg] at hp
            rcases mem_dictSet hp with hold | hnew
            · exact hNN p hold
            · subst hnew
              intro e he
              rw [List.mem_singleton] at he
              rw [he]
              exact hw (o, d, w) (List.mem_cons_self _ _)
      exact ih (agregarRuta g o d w) _ (fun r' hr' => hw r' (List.mem_cons_of_mem _ hr')) hstep

theorem completar_extiende :
    ∀ (ns : List Node) (g : Graph), ∃ ext, completarNodos ns g = g ++ ext ∧
      ∀ p ∈ ext, p.2 = ([] : Adj) := by
  intro ns
  induction ns with
  | nil =>
      intro g
      exact ⟨[], by simp [completarNodos], by simp⟩
  | cons n ns ih =>
      intro g
      unfold completarNodos
      cases hg : dictGet g n with
      | some v =>
          exact ih g
      | none =>
          obtain ⟨ext, he, hp⟩ := ih (g ++ [(n, [])])
          refine ⟨(n, []) :: ext, ?_, ?_⟩
          · rw [he, List.append_assoc]
            rfl
          · intro p hp'
            rcases List.mem_cons.mp hp' with heq | htail
            · rw [heq]
            · exact hp p htail

theorem completar_preserva {k : Node} {v : Adj} :
    ∀ (ns : List Node) (g : Graph), dictGet g k = some v →
      dictGet (completarNodos ns g) k = some v := by
  intro ns
  induction ns with
  | nil =>
      intro g h
      exact h
  | cons n ns ih =>
      intro g h
      unfold completarNodos
      cases hg : dictGet g n with
      | some w => exact ih g h
      | none => exact ih (g ++ [(n, [])]) (dictGet_append_left h)

theorem completar_mem :
    ∀ (ns : List Node) (g : Graph) (n : Node), n ∈ ns →
      ∃ v, dictGet (completarNodos ns g) n = some v := by
  intro ns
  induction ns with
  | nil =>
      intro g n hn
      exact absurd hn (List.not_mem_nil n)
  | cons m ns ih =>
      intro g n hn
      unfold completarNodos
      cases hg : dictGet g m with
      | some v =>
          rcases List.mem_cons.mp hn with heq | htail
          · subst heq
            exact ⟨v, completar_preserva ns g hg⟩
          · exact ih g n htail
      | none =>
          rcases List.mem_cons.mp hn with heq | htail
          · subst heq
            refine ⟨[], completar_preserva ns _ ?_⟩
            rw [dictGet_append_none hg]
            simp [dictGet]
          · exact ih (g ++ [(m, [])]) n htail

theorem construir_closed (rutas : List (Node × Node × ℚ)) :
    Closed (construir_grafo rutas) := by
  intro p hp e he
  unfold construir_grafo at hp ⊢
  obtain ⟨hTN, _, _, _, _⟩ := recorrer_inv rutas [] [] (by simp) (by simp) (by simp)
  obtain ⟨ext, hext, hvac⟩ := completar_extiende (recorrerRutas rutas [] []).2
    (recorrerRutas rutas [] []).1
  rw [hext] at hp ⊢
  rcases List.mem_append.mp hp with hg1 | hex
  · have hnodo : e.1 ∈ (recorrerRutas rutas [] []).2 := hTN p hg1 e he
    obtain ⟨v, hv⟩ := completar_mem (recorrerRutas rutas [] []).2
      (recorrerRutas rutas [] []).1 e.1 hnodo
    rw [hext] at hv
    exact mem_keys_of_dictGet hv
  · rw [hvac p hex] at he
    exact absurd he (List.not_mem_nil e)

theorem construir_nonneg {rutas : List (Node × Node × ℚ)}
    (hw : ∀ r ∈ rutas, 0 ≤ r.2.2) : NonNeg (construir_grafo rutas) := by
  intro p hp e he
  unfold construir_grafo at hp
  have hNN := recorrer_nonneg rutas [] [] hw (by simp)
  obtain ⟨ext, hext, hvac⟩ := completar_extiende (recorrerRutas rutas [] []).2
    (recorrerRutas rutas [] []).1
  rw [hext] at hp
  rcases List.mem_append.mp hp with hg1 | hex
  · exact hNN p hg1 e he
  · rw [hvac p hex] at he
    exact absurd he (List.not_mem_nil e)

theorem construir_nodup (rutas : List (Node × Node × ℚ)) :
    ∀ p ∈ construir_grafo rutas, (p.2.map Prod.fst).Nodup := by
  intro p hp
  unfold construir_grafo at hp
  obtain ⟨_, _, hND, _, _⟩ := recorrer_inv rutas [] [] (by simp) (by simp) (by simp)
  obtain ⟨ext, hext, hvac⟩ := completar_extiende (recorrerRutas rutas [] []).2
    (recorrerRutas rutas [] []).1
  rw [hext] at hp
  rcases List.mem_append.mp hp with hg1 | hex
  · exact hND p hg1
  · rw [hvac p hex]
    simp

theorem construir_mem_keys {rutas : List (Node × Node × ℚ)} {r : Node × Node × ℚ}
    (hr : r ∈ rutas) :
    (∃ ady, dictGet (construir_grafo rutas) r.1 = some ady) ∧
    (∃ ady, dictGet (construir_grafo rutas) r.2.1 = some ady) := by
  obtain ⟨_, _, _, _, hrs⟩ := recorrer_inv rutas [] [] (by simp) (by simp) (by simp)
  obtain ⟨ho, hd⟩ := hrs r hr
  unfold construir_grafo
  exact ⟨completar_mem _ _ r.1 ho, completar_mem _ _ r.2.1 hd⟩

/-! ### Dissecting the resolver -/

theorem procesar_uno_campos {fuel : Nat} {g : Graph} {e : Nat × Node × Node} {r : Resultado}
    (h : procesar_uno fuel g e = some r) :
    r.id_envio = e.1 ∧ r.origen = e.2.1 ∧ r.destino = e.2.2 := by
  unfold procesar_uno at h
  cases h1 : Dijkstra fuel g e.2.1 with
  | none => rw [h1] at h; exact Option.noConfusion h
  | some dp =>
      rw [h1] at h
      dsimp only at h
      cases h2 : dictGet g e.2.1 with
      | none =>
          rw [h2] at h
          injection h with h'
          rw [← h']
          exact ⟨rfl, rfl, rfl⟩
      | some ady0 =>
          rw [h2] at h
          dsimp only at h
          cases h3 : dictGet dp.1 e.2.2 with
          | none =>
              rw [h3] at h
              injection h with h'
              rw [← h']
              exact ⟨rfl, rfl, rfl⟩
          | some dval =>
              rw [h3] at h
              cases dval with
              | none =>
                  injection h with h'
                  rw [← h']
                  exact ⟨rfl, rfl, rfl⟩
              | some q =>
                  dsimp only at h
                  cases h4 : reconstruir_camino fuel dp.2 e.2.1 e.2.2 with
                  | none => rw [h4] at h; exact Option.noConfusion h
                  | some camino =>
                      rw [h4] at h
                      injection h with h'
                      rw [← h']
                      exact ⟨rfl, rfl, rfl⟩

theorem procesar_uno_resolved {fuel : Nat} {g : Graph} {e : Nat × Node × Node} {r : Resultado}
    (h : procesar_uno fuel g e = some r) (hres : r.status = Status.RESOLVED) :
    ∃ dist prev ady0 q camino,
      Dijkstra fuel g e.2.1 = some (dist, prev) ∧
      dictGet g e.2.1 = some ady0 ∧
      dictGet dist e.2.2 = some ((q : ℚ) : DVal) ∧
      reconstruir_camino fuel prev e.2.1 e.2.2 = some camino ∧
      r = ⟨e.1, e.2.1, e.2.2, Status.RESOLVED, some q, some camino⟩ := by
  unfold procesar_uno at h
  cases h1 : Dijkstra fuel g e.2.1 with
  | none => rw [h1] at h; exact Option.noConfusion h
  | some dp =>
      rw [h1] at h
      dsimp only at h
      cases h2 : dictGet g e.2.1 with
      | none =>
          rw [h2] at h
          injection h with h'
          rw [← h'] at hres
          exact Status.noConfusion hres
      | some ady0 =>
          rw [h2] at h
          dsimp only at h
          cases h3 : dictGet dp.1 e.2.2 with
          | none =>
              rw [h3] at h
              injection h with h'
              rw [← h'] at hres
              exact Status.noConfusion hres
          | some dval =>
              rw [h3] at h
              cases dval with
              | none =>
                  injection h with h'
                  rw [← h'] at hres
                  exact Status.noConfusion hres
              | some q =>
                  dsimp only at h
                  cases h4 : reconstruir_camino fuel dp.2 e.2.1 e.2.2 with
                  | none => rw [h4] at h; exact Option.noConfusion h
                  | some camino =>
                      rw [h4] at h
                      injection h with h'
                      refine ⟨dp.1, dp.2, ady0, q, camino, ?_, rfl, h3, h4, h'.symm⟩
                      rw [Prod.mk.eta]

theorem procesar_mem {fuel : Nat} {g : Graph} :
    ∀ {envios : List (Nat × Node × Node)} {res : List Resultado},
      procesar_envios fuel g envios = some res →
      ∀ r ∈ res, ∃ e ∈ envios, procesar_uno fuel g e = some r := by
  intro envios
  induction envios with
  | nil =>
      intro res h r hr
      unfold procesar_envios at h
      injection h with h'
      rw [← h'] at hr
      exact absurd hr (List.not_mem_nil r)
  | cons e es ih =>
      intro res h r hr
      unfold procesar_envios at h
      cases h1 : procesar_uno fuel g e with
      | none => rw [h1] at h; exact Option.noConfusion h
      | some r0 =>
          rw [h1] at h
          cases h2 : procesar_envios fuel g es with
          | none => rw [h2] at h; exact Option.noConfusion h
          | some rs =>
              rw [h2] at h
              injection h with h'
              rw [← h'] at hr
              rcases List.mem_cons.mp hr with heq | htail
              · exact ⟨e, List.mem_cons_self _ _, by rw [heq]; exact h1⟩
              · obtain ⟨e', he', hp⟩ := ih h2 r htail
                exact ⟨e', List.mem_cons_of_mem _ he', hp⟩

/-! ### The claims -/

/-- Claim C2: on a graph satisfying the data-model invariants (closed, with
non-negative weights), for a source that is a key of the graph, once the
Dijkstra loop terminates no improving edge remains: for every edge
`u → v` of weight `w`, `dist[v] ≤ dist[u] + w` (with `⊤` the unreachable
sentinel). -/
theorem claim_C2_sin_mejora (g : Graph) (origen : Node) (fuel : Nat)
    (dist : DistMap) (prev : PrevMap) (ady0 : Adj)
    (hC : Closed g) (hW : NonNeg g)
    (hsrc : dictGet g origen = some ady0)
    (hrun : Dijkstra fuel g origen = some (dist, prev)) :
    ∀ u ady, dictGet g u = some ady → ∀ v w, (v, w) ∈ ady →
      dOf dist v ≤ dOf dist u + (w : DVal) :=
  fun u ady hu v w hvw =>
    inv_final_noimprove (Dijkstra_inv hC hW hsrc hrun) u ady hu (v, w) hvw

theorem claim_C2_sin_mejora_witness :
    Closed gEj ∧ NonNeg gEj ∧ dictGet gEj "A" = some [("B", 5), ("C", 10)] ∧
    Dijkstra 50 gEj "A" = some (distEjA, prevEjA) ∧
    dOf distEjA "C" ≤ dOf distEjA "B" + ((3 : ℚ) : DVal) :=
  ⟨by with_unfolding_all decide, by with_unfolding_all decide,
   by with_unfolding_all decide, by with_unfolding_all decide,
   claim_C2_sin_mejora gEj "A" 50 distEjA prevEjA [("B", 5), ("C", 10)]
     (by with_unfolding_all decide) (by with_unfolding_all decide)
     (by with_unfolding_all decide) (by with_unfolding_all decide)
     "B" [("C", 3), ("D", 9)] (by with_unfolding_all decide) "C" 3
     (by with_unfolding_all decide)⟩

/-- Claim C3: the concrete scenario. On the graph with edges A→B=5, A→C=10,
B→C=3, C→D=1.5, B→D=9, the batch [(1,A,D), (2,B,A), (3,A,C), (4,Z,A)]
resolves to: 1 RESOLVED distance 9.5 path [A,B,C,D]; 2 UNREACHABLE;
3 RESOLVED distance 8 path [A,B,C]; 4 ORIGIN_UNKNOWN. -/
theorem claim_C3_escenario_concreto :
    procesar_envios 50 gEj enviosEj = some resultadosEj := by
  with_unfolding_all decide

/-- Claim C4: if the source is not a key of the graph, `Dijkstra` returns
without error the all-unreachable DistanceMap and the all-none
PredecessorMap over exactly the graph's nodes. -/
theorem claim_C4_origen_desconocido (g : Graph) (origen : Node) (fuel : Nat)
    (h : dictGet g origen = none) :
    Dijkstra fuel g origen = some (initDist g, initPrev g) ∧
    ∀ n ∈ g.map Prod.fst, dictGet (initDist g) n = some (⊤ : DVal) ∧
      dictGet (initPrev g) n = some (none : Option Node) := by
  constructor
  · unfold Dijkstra
    rw [h]
  · intro n hn
    obtain ⟨v, hv⟩ := dictGet_isSome_of_mem_keys hn
    constructor
    · unfold initDist
      rw [dictGet_map_const, hv]
      rfl
    · unfold initPrev
      rw [dictGet_map_const, hv]
      rfl

theorem claim_C4_origen_desconocido_witness :
    dictGet gEj "Z" = none ∧
    Dijkstra 7 gEj "Z" = some (initDist gEj, initPrev gEj) ∧
    dictGet (initDist gEj) "D" = some (⊤ : DVal) ∧
    dictGet (initPrev gEj) "D" = some (none : Option Node) :=
  ⟨by with_unfolding_all decide,
   (claim_C4_origen_desconocido gEj "Z" 7 (by with_unfolding_all decide)).1,
   ((claim_C4_origen_desconocido gEj "Z" 7 (by with_unfolding_all decide)).2 "D"
     (by with_unfolding_all decide)).1,
   ((claim_C4_origen_desconocido gEj "Z" 7 (by with_unfolding_all decide)).2 "D"
     (by with_unfolding_all decide)).2⟩

/-- Claim C6, counterexample: for a source that is not a key of the graph
(here `Z` on the example graph), `Dijkstra` returns a DistanceMap with no
entry for the source at all, so it does not map the source to 0 — the claim
as stated over every source is false. -/
theorem claim_C6_contraejemplo :
    Dijkstra 50 gEj "Z" = some (initDist gEj, initPrev gEj) ∧
    dictGet (initDist gEj) "Z" = none ∧
    dictGet (initDist gEj) "Z" ≠ some ((0 : ℚ) : DVal) := by
  refine ⟨?_, ?_, ?_⟩ <;> with_unfolding_all decide

/-- Claim C6, amended: for every source that is a key of the graph (the graph
closed with non-negative weights), whenever `Dijkstra` terminates the
returned DistanceMap maps the source to 0. -/
theorem claim_C6_distancia_cero (g : Graph) (origen : Node) (fuel : Nat)
    (dist : DistMap) (prev : PrevMap) (ady0 : Adj)
    (hC : Closed g) (hW : NonNeg g)
    (hsrc : dictGet g origen = some ady0)
    (hrun : Dijkstra fuel g origen = some (dist, prev)) :
    dictGet dist origen = some ((0 : ℚ) : DVal) :=
  dictGet_of_dOf_coe (Dijkstra_inv hC hW hsrc hrun).hO

theorem claim_C6_distancia_cero_witness :
    Closed gEj ∧ NonNeg gEj ∧ Dijkstra 50 gEj "A" = some (distEjA, prevEjA) ∧
    dictGet distEjA "A" = some ((0 : ℚ) : DVal) :=
  ⟨by with_unfolding_all decide, by with_unfolding_all decide,
   by with_unfolding_all decide,
   claim_C6_distancia_cero gEj "A" 50 distEjA prevEjA [("B", 5), ("C", 10)]
     (by with_unfolding_all decide) (by with_unfolding_all decide)
     (by with_unfolding_all decide) (by with_unfolding_all decide)⟩

/-- Claim C8: every node appearing in any edge of the input list (as origin
or destination) is a key of the built graph, with a (possibly empty)
adjacency map. -/
theorem claim_C8_clausura_nodos (rutas : List (Node × Node × ℚ)) :
    ∀ r ∈ rutas, (∃ ady, dictGet (construir_grafo rutas) r.1 = some ady) ∧
      ∃ ady, dictGet (construir_grafo rutas) r.2.1 = some ady :=
  fun _ hr => construir_mem_keys hr

theorem claim_C8_clausura_nodos_witness :
    ("C", "D", (3/2 : ℚ)) ∈ rutasEj ∧
    ((∃ ady, dictGet (construir_grafo rutasEj) "C" = some ady) ∧
      ∃ ady, dictGet (construir_grafo rutasEj) "D" = some ady) :=
  ⟨by with_unfolding_all decide,
   claim_C8_clausura_nodos rutasEj ("C", "D", (3/2 : ℚ))
     (by with_unfolding_all decide)⟩

/-- Claim C10: for every source, known or unknown, the DistanceMap and
PredecessorMap returned by a terminating run of `Dijkstra` have exactly the
graph's key list as their key list — no key missing, none added. -/
theorem claim_C10_claves_estables (g : Graph) (origen : Node) (fuel : Nat)
    (dist : DistMap) (prev : PrevMap) (hC : Closed g) (hW : NonNeg g)
    (hrun : Dijkstra fuel g origen = some (dist, prev)) :
    dist.map Prod.fst = g.map Prod.fst ∧ prev.map Prod.fst = g.map Prod.fst := by
  cases hsrc : dictGet g origen with
  | none =>
      unfold Dijkstra at hrun
      rw [hsrc] at hrun
      injection hrun with h'
      have hd : initDist g = dist := congrArg Prod.fst h'
      have hp : initPrev g = prev := congrArg Prod.snd h'
      rw [← hd, ← hp]
      exact ⟨mapfst_initDist g, mapfst_initPrev g⟩
  | some ady =>
      have hinv := Dijkstra_inv hC hW hsrc hrun
      exact ⟨hinv.keysD, hinv.keysP⟩

theorem claim_C10_claves_estables_witness :
    Closed gEj ∧ NonNeg gEj ∧ Dijkstra 50 gEj "A" = some (distEjA, prevEjA) ∧
    distEjA.map Prod.fst = gEj.map Prod.fst ∧
    prevEjA.map Prod.fst = gEj.map Prod.fst :=
  ⟨by with_unfolding_all decide, by with_unfolding_all decide,
   by with_unfolding_all decide,
   (claim_C10_claves_estables gEj "A" 50 distEjA prevEjA
     (by with_unfolding_all decide) (by with_unfolding_all decide)
     (by with_unfolding_all decide)).1,
   (claim_C10_claves_estables gEj "A" 50 distEjA prevEjA
     (by with_unfolding_all decide) (by with_unfolding_all decide)
     (by with_unfolding_all decide)).2⟩

/-- Claim C7: a completed batch resolution yields exactly one result per
request, in input order: the result list has the same length and the i-th
result carries the i-th request's id, origin and destination — no request's
ORIGIN_UNKNOWN or UNREACHABLE outcome aborts the rest of the batch. -/
theorem claim_C7_orden_preservado (fuel : Nat) (g : Graph) :
    ∀ (envios : List (Nat × Node × Node)) (res : List Resultado),
      procesar_envios fuel g envios = some res →
      res.length = envios.length ∧
      ∀ (i : Nat) (hi : i < res.length) (hi' : i < envios.length),
        (res.get ⟨i, hi⟩).id_envio = (envios.get ⟨i, hi'⟩).1 ∧
        (res.get ⟨i, hi⟩).origen = (envios.get ⟨i, hi'⟩).2.1 ∧
        (res.get ⟨i, hi⟩).destino = (envios.get ⟨i, hi'⟩).2.2 := by
  intro envios
  induction envios with
  | nil =>
      intro res h
      unfold procesar_envios at h
      injection h with h'
      rw [← h']
      exact ⟨rfl, fun i hi hi' => absurd hi' (Nat.not_lt_zero i)⟩
  | cons e es ih =>
      intro res h
      unfold procesar_envios at h
      cases h1 : procesar_uno fuel g e with
      | none => rw [h1] at h; exact Option.noConfusion h
      | some r0 =>
          rw [h1] at h
          cases h2 : procesar_envios fuel g es with
          | none => rw [h2] at h; exact Option.noConfusion h
          | some rs =>
              rw [h2] at h
              injection h with h'
              obtain ⟨hlen, hidx⟩ := ih rs h2
              rw [← h']
              refine ⟨by simp [hlen], ?_⟩
              intro i hi hi'
              cases i with
              | zero => exact procesar_uno_campos h1
              | succ n =>
                  exact hidx n (Nat.lt_of_succ_lt_succ (by simpa using hi))
                    (Nat.lt_of_succ_lt_succ (by simpa using hi'))

theorem claim_C7_orden_preservado_witness :
    procesar_envios 50 gEj enviosEj = some resultadosEj ∧
    resultadosEj.length = enviosEj.length :=
  ⟨by with_unfolding_all decide,
   (claim_C7_orden_preservado 50 gEj enviosEj resultadosEj
     (by with_unfolding_all decide)).1⟩

/-- Claim C5: on a graph satisfying the data-model invariants, a completed
batch resolution never surfaces a RESOLVED result with an empty path: every
RESOLVED result carries a nonempty reconstructed path. -/
theorem claim_C5_camino_no_vacio (fuel : Nat) (g : Graph)
    (hC : Closed g) (hW : NonNeg g)
    (envios : List (Nat × Node × Node)) (res : List Resultado)
    (hrun : procesar_envios fuel g envios = some res) :
    ∀ r ∈ res, r.status = Status.RESOLVED → ∃ c, r.camino = some c ∧ c ≠ [] := by
  intro r hr hres
  obtain ⟨e, _, hp⟩ := procesar_mem hrun r hr
  obtain ⟨dist, prev, ady0, q, camino, hrun', hsrc, hdist, hrec, req⟩ :=
    procesar_uno_resolved hp hres
  have hinv := Dijkstra_inv hC hW hsrc hrun'
  obtain ⟨hne, _, _, _⟩ := reconstruir_ok hinv hdist hrec
  exact ⟨camino, by rw [req], hne⟩

theorem claim_C5_camino_no_vacio_witness :
    Closed gEj ∧ NonNeg gEj ∧
    procesar_envios 50 gEj enviosEj = some resultadosEj ∧
    (⟨3, "A", "C", Status.RESOLVED, some 8, some ["A", "B", "C"]⟩ : Resultado) ∈ resultadosEj ∧
    ∃ c, (⟨3, "A", "C", Status.RESOLVED, some 8, some ["A", "B", "C"]⟩ : Resultado).camino =
      some c ∧ c ≠ [] :=
  ⟨by with_unfolding_all decide, by with_unfolding_all decide,
   by with_unfolding_all decide, by with_unfolding_all decide,
   claim_C5_camino_no_vacio 50 gEj (by with_unfolding_all decide)
     (by with_unfolding_all decide) enviosEj resultadosEj
     (by with_unfolding_all decide) _ (by with_unfolding_all decide)
     (by with_unfolding_all decide)⟩

/-- Claim C9: on a graph satisfying the data-model invariants, a request
whose origin equals its destination and whose origin is a key of the graph
resolves to RESOLVED with distance 0 and the singleton path [origin]. -/
theorem claim_C9_origen_es_destino (fuel : Nat) (g : Graph)
    (hC : Closed g) (hW : NonNeg g)
    (idEnvio : Nat) (o : Node) (ady0 : Adj) (hsrc : dictGet g o = some ady0)
    (r : Resultado) (h : procesar_uno fuel g (idEnvio, o, o) = some r) :
    r = ⟨idEnvio, o, o, Status.RESOLVED, some 0, some [o]⟩ := by
  cases fuel with
  | zero =>
      have hd : Dijkstra 0 g o = none := by
        unfold Dijkstra
        rw [hsrc]
        rfl
      unfold procesar_uno at h
      rw [hd] at h
      exact Option.noConfusion h
  | succ n =>
      unfold procesar_uno at h
      cases hrun : Dijkstra (n + 1) g o with
      | none => rw [hrun] at h; exact Option.noConfusion h
      | some dp =>
          obtain ⟨dist, prev⟩ := dp
          rw [hrun] at h
          dsimp only at h
          have hinv := Dijkstra_inv hC hW hsrc hrun
          rw [hsrc] at h
          dsimp only at h
          have h0 : dictGet dist o = some ((0 : ℚ) : DVal) :=
            dictGet_of_dOf_coe hinv.hO
          cases h3 : dictGet dist o with
          | none => rw [h3] at h0; exact Option.noConfusion h0
          | some dval =>
              rw [h3] at h0
              injection h0 with h0'
              cases dval with
              | none => exact Option.noConfusion h0'
              | some q =>
                  injection h0' with h0''
                  subst h0''
                  rw [h3] at h
                  dsimp only at h
                  have hokeys : o ∈ prev.map Prod.fst := by
                    rw [hinv.keysP]
                    exact mem_keys_of_dictGet hsrc
                  obtain ⟨p0, hp0⟩ := dictGet_isSome_of_mem_keys hokeys
                  have hrc : reconstruir_camino (n + 1) prev o o = some [o] := by
                    unfold reconstruir_camino
                    rw [hp0]
                    dsimp only
                    simp [reconstruirLoop]
                  rw [hrc] at h
                  dsimp only at h
                  injection h with h'
                  exact h'.symm

theorem claim_C9_origen_es_destino_witness :
    Closed gEj ∧ NonNeg gEj ∧ dictGet gEj "B" = some [("C", 3), ("D", 9)] ∧
    procesar_uno 50 gEj (7, "B", "B") =
      some ⟨7, "B", "B", Status.RESOLVED, some 0, some ["B"]⟩ ∧
    (⟨7, "B", "B", Status.RESOLVED, some 0, some ["B"]⟩ : Resultado) =
      ⟨7, "B", "B", Status.RESOLVED, some 0, some ["B"]⟩ :=
  ⟨by with_unfolding_all decide, by with_unfolding_all decide,
   by with_unfolding_all decide, by with_unfolding_all decide,
   claim_C9_origen_es_destino 50 gEj (by with_unfolding_all decide)
     (by with_unfolding_all decide) 7 "B" [("C", 3), ("D", 9)]
     (by with_unfolding_all decide) _ (by with_unfolding_all decide)⟩

/-- Claim C1: on a graph built by `construir_grafo` from non-negatively
weighted edges, every RESOLVED result of a completed batch resolution carries
a path that starts at the request's origin, ends at its destination, has
edge count `length - 1`, follows only edges of the graph, and whose summed
edge weights equal the returned distance exactly. -/
theorem claim_C1_validez_camino (rutas : List (Node × Node × ℚ))
    (hw : ∀ r ∈ rutas, 0 ≤ r.2.2) (fuel : Nat)
    (envios : List (Nat × Node × Node)) (res : List Resultado)
    (hrun : procesar_envios fuel (construir_grafo rutas) envios = some res) :
    ∀ r ∈ res, r.status = Status.RESOLVED →
      ∃ camino q, r.camino = some camino ∧ r.distancia = some q ∧
        camino.head? = some r.origen ∧ camino.getLast? = some r.destino ∧
        (camino.zip camino.tail).length + 1 = camino.length ∧
        (∀ pr ∈ camino.zip camino.tail,
          (edgeW (construir_grafo rutas) pr.1 pr.2).isSome) ∧
        sumAristas (construir_grafo rutas) (camino.zip camino.tail) = some q := by
  intro r hr hres
  obtain ⟨e, _, hp⟩ := procesar_mem hrun r hr
  obtain ⟨dist, prev, ady0, q, camino, hrun', hsrc, hdist, hrec, req⟩ :=
    procesar_uno_resolved hp hres
  have hC := construir_closed rutas
  have hW := construir_nonneg hw
  have hnd := construir_nodup rutas
  have hinv := Dijkstra_inv hC hW hsrc hrun'
  obtain ⟨hne, hhead, hlast, hchain⟩ := reconstruir_ok hinv hdist hrec
  cases camino with
  | nil => exact absurd rfl hne
  | cons c0 ct =>
      simp only [List.head?_cons, Option.some.injEq] at hhead
      have h0 : dictGet dist c0 = some ((0 : ℚ) : DVal) := by
        rw [hhead]
        exact dictGet_of_dOf_coe hinv.hO
      obtain ⟨s, qz, z, hsum, hlast', hqz, heqz⟩ := telescopio hinv hnd ct c0 0 h0 hchain
      have hz : z = e.2.2 := by
        rw [hlast'] at hlast
        injection hlast with h''
      have hqq : qz = q := by
        subst hz
        rw [hdist] at hqz
        injection hqz with h''
        exact (WithTop.coe_inj.mp h'').symm
      have hsq : s = q := by
        rw [← hqq, heqz]
        ring
      refine ⟨c0 :: ct, q, by rw [req], by rw [req], ?_, ?_, ?_, ?_, ?_⟩
      · rw [req]
        simp [hhead]
      · rw [req]
        exact hlast
      · simp
      · intro pr hpr
        exact sumAristas_mem_isSome hsum pr hpr
      · show sumAristas (construir_grafo rutas) ((c0 :: ct).zip ct) = some q
        rw [← hsq]
        exact hsum

theorem claim_C1_validez_camino_witness :
    (∀ r ∈ rutasEj, 0 ≤ r.2.2) ∧
    procesar_envios 50 (construir_grafo rutasEj) enviosEj = some resultadosEj ∧
    (⟨1, "A", "D", Status.RESOLVED, some (19/2), some ["A", "B", "C", "D"]⟩ : Resultado)
      ∈ resultadosEj ∧
    ∃ camino q,
      (⟨1, "A", "D", Status.RESOLVED, some (19/2), some ["A", "B", "C", "D"]⟩ :
        Resultado).camino = some camino ∧
      (⟨1, "A", "D", Status.RESOLVED, some (19/2), some ["A", "B", "C", "D"]⟩ :
        Resultado).distancia = some q ∧
      camino.head? = some "A" ∧ camino.getLast? = some "D" ∧
      (camino.zip camino.tail).length + 1 = camino.length ∧
      (∀ pr ∈ camino.zip camino.tail,
        (edgeW (construir_grafo rutasEj) pr.1 pr.2).isSome) ∧
      sumAristas (construir_grafo rutasEj) (camino.zip camino.tail) = some q :=
  ⟨by with_unfolding_all decide, by with_unfolding_all decide,
   by with_unfolding_all decide,
   claim_C1_validez_camino rutasEj (by with_unfolding_all decide) 50
     enviosEj resultadosEj (by with_unfolding_all decide) _
     (by with_unfolding_all decide) (by with_unfolding_all decide)⟩
